import Mathlib

/-!
Verification of the array-sum benchmark (`src/main_sum.cpp`).

The program generates a 100,000,000-element array of unsigned 32-bit
integers, computes a reference sum by sequential accumulation, and then
benchmarks several summation strategies (CPU sequential, CPU OpenMP,
and six OpenCL kernels), validating each trial's result against the
reference sum via `raiseFail`.

Machine `unsigned int` arithmetic is embedded as `Nat` with explicit
reduction modulo `2 ^ 32` (`uadd32`).  The OpenCL kernel bodies
(`cl/sum_cl.h`) and the `FastRandom` generator are library/asset files
not present in the repository snapshot; they are modelled from the
specification where needed, and each such definition is marked
`Modelled from the spec:` in its doc comment.
-/

namespace SumBench

/-! ### Core arithmetic and CPU strategies -/

/-- `2 ^ 32`, the modulus of C `unsigned int` arithmetic. -/
def M32 : Nat := 2 ^ 32

/-- Wraparound unsigned 32-bit addition: the semantics of `a + b` on
C `unsigned int` operands (`sum += as[i]` and every kernel addition). -/
def uadd32 (a b : Nat) : Nat := (a + b) % M32

/-- Left-to-right accumulation with wraparound 32-bit addition, the shape of
every sequential summation loop in `main_sum.cpp`. -/
def sumU32 (l : List Nat) : Nat := l.foldl uadd32 0

/-- The oracle: `reference_sum` accumulated sequentially during input
generation (lines 27-34 of `main_sum.cpp`). -/
def reference_sum (as : List Nat) : Nat := as.foldl uadd32 0

/-- The CPU sequential strategy: `sum = 0; for i < n: sum += as[i]`
(lines 38-45 of `main_sum.cpp`). -/
def cpuSequentialSum (as : List Nat) : Nat := as.foldl uadd32 0

/-- Element access `as[i]` (with default 0 to keep the embedding total;
each theorem tracks in-bounds indices separately). -/
def elemAt (as : List Nat) (i : Nat) : Nat := as.getD i 0

/-- The element contributed by a guarded access `if (i < n) as[i]`:
out-of-range execution units contribute 0. -/
def guardedElem (as : List Nat) (n i : Nat) : Nat := if i < n then elemAt as i else 0

/-- `workGroupSize` constant, line 67 of `main_sum.cpp`. -/
def workGroupSize : Nat := 128

/-- `global_work_size = (n + workGroupSize - 1) / workGroupSize * workGroupSize`,
line 68 of `main_sum.cpp`. -/
def global_work_size (n : Nat) : Nat :=
  (n + workGroupSize - 1) / workGroupSize * workGroupSize

/-! ### Input generation constants (lines 25-34) -/

/-- `std::numeric_limits<unsigned int>::max()`. -/
def maxUint : Nat := 2 ^ 32 - 1

/-- `n = 100*1000*1000`, line 28 of `main_sum.cpp`. -/
def nElements : Nat := 100 * 1000 * 1000

/-- The upper bound `std::numeric_limits<unsigned int>::max() / n` passed to
`r.next(0, ...)` on line 32 — exact C integer division. -/
def elemBound : Nat := maxUint / nElements

/-- `benchmarkingIters = 10`, line 25 of `main_sum.cpp`. -/
def benchmarkingIters : Nat := 10

/-- The fixed list of kernel names, lines 69-76 of `main_sum.cpp`. -/
def kernel_names : List String :=
  ["sum_dummy", "sum_global_atomic", "sum_loop", "sum_loop_coalesced",
   "sum_local_memory", "sum_tree"]

/-! ### Accelerator kernel models

The kernel source `cl/sum_cl.h` is not part of the repository snapshot;
the six kernels are modelled from the specification's variant table and
shared contract (spec section 4.4). -/

/-- Modelled from the spec: kernel `sum_dummy` — "one single execution unit
iterates the entire array" with wraparound accumulation into the result. -/
def sum_dummy (as : List Nat) (n : Nat) : Nat :=
  ((List.range n).map (elemAt as)).foldl uadd32 0

/-- Modelled from the spec: kernel `sum_global_atomic` — "every execution
unit adds its own single element directly into the shared result via an
atomic add"; units with index `≥ n` contribute nothing; the result holds the
wraparound sum of all contributions. -/
def sum_global_atomic (as : List Nat) (n units : Nat) : Nat :=
  (∑ gid ∈ Finset.range units, guardedElem as n gid) % M32

/-- Modelled from the spec: kernel `sum_loop` — "each execution unit sums a
fixed number of elements per unit (`K = VALUES_PER_WORKITEM`), stepping
through memory with a stride equal to the total unit count"; each access is
guarded by the bound `n`. -/
def sum_loop (as : List Nat) (n units K : Nat) : Nat :=
  (∑ gid ∈ Finset.range units, ∑ j ∈ Finset.range K,
    guardedElem as n (gid + j * units)) % M32

/-- Modelled from the spec: kernel `sum_loop_coalesced` — "same per-unit
workload as above but each unit's assigned elements are contiguous": unit
`gid` covers indices `gid * K + j` for `j < K`, guarded by `n`. -/
def sum_loop_coalesced (as : List Nat) (n units K : Nat) : Nat :=
  (∑ gid ∈ Finset.range units, ∑ j ∈ Finset.range K,
    guardedElem as n (gid * K + j)) % M32

/-- Modelled from the spec: the partial sum one work group of
`workGroupSize` units accumulates in local memory (wraparound addition),
for the `sum_local_memory` kernel. -/
def groupPartial (as : List Nat) (n g : Nat) : Nat :=
  (∑ lid ∈ Finset.range workGroupSize,
    guardedElem as n (g * workGroupSize + lid)) % M32

/-- Modelled from the spec: kernel `sum_local_memory` — "each group of
co-scheduled units accumulates a partial sum into a shared fast-scratch
buffer sized to the group, then one representative per group adds the group
partial into the global result". -/
def sum_local_memory (as : List Nat) (n units : Nat) : Nat :=
  (∑ g ∈ Finset.range (units / workGroupSize), groupPartial as n g) % M32

/-- Modelled from the spec: the `workGroupSize` guarded values staged into
the fast-scratch buffer by group `g` for the `sum_tree` kernel. -/
def groupVals (as : List Nat) (n g : Nat) : List Nat :=
  (List.range workGroupSize).map (fun lid => guardedElem as n (g * workGroupSize + lid))

/-- Modelled from the spec: one halving step of the in-group binary tree
reduction — positions `i` and `i + len/2` are combined with wraparound
addition. -/
def halveStep (l : List Nat) : List Nat :=
  (List.range (l.length / 2)).map (fun i => uadd32 (l.getD i 0) (l.getD (i + l.length / 2) 0))

/-- Modelled from the spec: `k` successive halving steps followed by reading
slot 0 of the scratch buffer (classic binary tree reduction). -/
def treeReduce : Nat → List Nat → Nat
  | 0, l => l.getD 0 0
  | k + 1, l => treeReduce k (halveStep l)

/-- Modelled from the spec: kernel `sum_tree` — "within each group, partial
sums are combined pairwise in successive halving steps inside the shared
fast-scratch buffer, then one value per group is folded into the global
result".  A group of 128 = 2 ^ 7 units needs 7 halving steps. -/
def sum_tree (as : List Nat) (n units : Nat) : Nat :=
  (∑ g ∈ Finset.range (units / workGroupSize), treeReduce 7 (groupVals as n g)) % M32

/-! ### The failure helper `raiseFail` and the benchmark harness trace -/

/-- The data carried by one `raiseFail` failure: the `message`, the two
compared values `a` and `b`, and the `__FILE__` / `__LINE__` of the
`EXPECT_THE_SAME` call site. -/
structure FailInfo where
  message : String
  a : Nat
  b : Nat
  filename : String
  line : Nat
deriving DecidableEq

/-- The line `raiseFail` prints to `std::cerr` before throwing
(line 15 of `main_sum.cpp`). -/
def failMessageLine (f : FailInfo) : String :=
  f.message ++ " But " ++ toString f.a ++ " != " ++ toString f.b ++ ", "
    ++ f.filename ++ ":" ++ toString f.line

/-- `raiseFail` (lines 11-18 of `main_sum.cpp`): if `a != b`, print the
diagnostic line to `std::cerr` and throw `std::runtime_error(message)`.
First component: the thrown exception (`none` = normal return); second
component: the lines written to `std::cerr`. -/
def raiseFail (a b : Nat) (message filename : String) (line : Nat) :
    Option FailInfo × List String :=
  if a ≠ b then
    (some ⟨message, a, b, filename, line⟩,
      [failMessageLine ⟨message, a, b, filename, line⟩])
  else (none, [])

/-- `__FILE__` at the `EXPECT_THE_SAME` call sites of `main_sum.cpp`. -/
def srcFileName : String := "src/main_sum.cpp"

/-- `__LINE__` of the `EXPECT_THE_SAME(reference_sum, result, name)` call in
the kernel benchmarking loop (line 102 of `main_sum.cpp`). -/
def detectionLine : Nat := 102

/-- Observable steps of the kernel benchmark loop (lines 93-107). -/
inductive Event where
  | compile (name : String)
  | resetResult
  | kernelExec (name : String) (v : Nat)
  | readBack (v : Nat)
  | validate (expected actual : Nat)
  | lapEnd
deriving DecidableEq

/-- The events of one benchmarking iteration (lines 99-102): clear the
result cell to zero, execute the kernel (which leaves `v` in the cell),
read the cell back, validate against the reference. -/
def kernelTrial (refv : Nat) (name : String) (v : Nat) : List Event :=
  [Event.resetResult, Event.kernelExec name v, Event.readBack v, Event.validate refv v]

/-- One executed trial including its timer lap (`t.nextLap()`, line 103),
which is only reached when validation passes. -/
def trialSegment (refv : Nat) (name : String) (v : Nat) : List Event :=
  kernelTrial refv name v ++ if v = refv then [Event.lapEnd] else []

/-- The per-trial kernel results that actually get produced before the run
aborts: everything up to and including the first mismatching result. -/
def executedOutcomes (refv : Nat) : List Nat → List Nat
  | [] => []
  | v :: rest => if v = refv then v :: executedOutcomes refv rest else [v]

/-- The benchmarking loop for one kernel (lines 98-104), given the result
each iteration's kernel execution leaves in the result cell.  Produces the
event trace and the failure thrown by `EXPECT_THE_SAME`, if any. -/
def runTrials (refv : Nat) (name : String) : List Nat → List Event × Option FailInfo
  | [] => ([], none)
  | v :: rest =>
    match (raiseFail refv v name srcFileName detectionLine).1 with
    | some fi => (kernelTrial refv name v, some fi)
    | none =>
      let r := runTrials refv name rest
      (kernelTrial refv name v ++ [Event.lapEnd] ++ r.1, r.2)

/-- The per-kernel loop (lines 93-107): compile the kernel, then run its
trials; an uncaught failure aborts the whole loop. -/
def runKernels (refv : Nat) : List (String × List Nat) → List Event × Option FailInfo
  | [] => ([], none)
  | (name, outs) :: rest =>
    let r := runTrials refv name outs
    match r.2 with
    | some fi => (Event.compile name :: r.1, some fi)
    | none =>
      let r2 := runKernels refv rest
      (Event.compile name :: (r.1 ++ r2.1), r2.2)

/-- A run in which every trial of every kernel produces the reference sum —
what the program actually does (each kernel deterministically computes the
oracle value). -/
def successRun (refv : Nat) (names : List String) (iters : Nat) :
    List Event × Option FailInfo :=
  runKernels refv (names.map (fun nm => (nm, List.replicate iters refv)))

/-- The full event block one kernel contributes to a fully successful run:
one compilation, then `iters` timed trials. -/
def kernelBlock (refv : Nat) (iters : Nat) (name : String) : List Event :=
  Event.compile name :: (List.replicate iters (trialSegment refv name refv)).flatten

/-- The values written into the single-scalar result cell by a list of
events: a reset writes 0, a kernel execution writes its result. -/
def writtenValues (es : List Event) : List Nat :=
  es.filterMap (fun e =>
    match e with
    | Event.resetResult => some 0
    | Event.kernelExec _ v => some v
    | _ => none)

/-- Does the event write the result cell on behalf of the active strategy? -/
def isStrategyWrite : Event → Bool
  | Event.kernelExec _ _ => true
  | _ => false

/-- Is the event a kernel execution of the kernel named `nm`? -/
def isExecOf (nm : String) : Event → Bool
  | Event.kernelExec s _ => s = nm
  | _ => false

/-- Is the event a kernel compilation? -/
def isCompile : Event → Bool
  | Event.compile _ => true
  | _ => false

/-! ### Arithmetic lemmas about wraparound accumulation -/

theorem M32_pos : 0 < M32 := by decide

theorem uadd32_lt (a b : Nat) : uadd32 a b < M32 :=
  Nat.mod_lt _ M32_pos

/-- Folding `uadd32` computes the plain sum modulo `2 ^ 32`. -/
theorem foldl_uadd32_mod (l : List Nat) :
    ∀ a : Nat, l.foldl uadd32 a % M32 = (a + l.sum) % M32 := by
  induction l with
  | nil => intro a; simp
  | cons x t ih =>
    intro a
    simp only [List.foldl_cons, List.sum_cons]
    rw [ih (uadd32 a x)]
    show ((a + x) % M32 + t.sum) % M32 = (a + (x + t.sum)) % M32
    rw [Nat.mod_add_mod, Nat.add_assoc]

/-- A fold that starts below the modulus stays below it. -/
theorem foldl_uadd32_lt (l : List Nat) :
    ∀ a : Nat, a < M32 → l.foldl uadd32 a < M32 := by
  induction l with
  | nil => intro a h; simpa using h
  | cons x t ih =>
    intro a h
    exact ih (uadd32 a x) (uadd32_lt a x)

/-- `sumU32` is the plain sum reduced modulo `2 ^ 32`. -/
theorem sumU32_eq_sum_mod (l : List Nat) : sumU32 l = l.sum % M32 := by
  have h := foldl_uadd32_lt l 0 M32_pos
  have h2 := foldl_uadd32_mod l 0
  unfold sumU32
  rw [Nat.mod_eq_of_lt h] at h2
  simpa using h2

/-! ### Index/range summation lemmas -/

/-- Bridge between `Finset.range` sums and `List.range` sums. -/
theorem finset_sum_range_eq_list (n : Nat) (f : Nat → Nat) :
    ∑ i ∈ Finset.range n, f i = ((List.range n).map f).sum := by
  induction n with
  | zero => simp
  | succ m ih => rw [Finset.sum_range_succ, List.range_succ]; simp [ih]

/-- Reading every position of a list back yields the list. -/
theorem map_getD_range (as : List Nat) :
    (List.range as.length).map (fun i => as.getD i 0) = as := by
  induction as with
  | nil => simp
  | cons a t ih =>
    rw [List.length_cons, List.range_succ_eq_map, List.map_cons, List.map_map]
    have h : (fun i => (a :: t).getD i 0) ∘ Nat.succ = fun i => t.getD i 0 := by
      funext i; simp
    rw [h, ih]
    simp

/-- Summing positionally over the range of indices equals the list sum. -/
theorem sum_range_getD (as : List Nat) :
    ∑ i ∈ Finset.range as.length, as.getD i 0 = as.sum := by
  rw [finset_sum_range_eq_list, map_getD_range]

/-- Guarded contributions over an index range `u ⊇ [0, n)` reduce to the
unguarded sum over `[0, n)`: out-of-range units contribute nothing. -/
theorem sum_range_guard {n u : Nat} (h : n ≤ u) (f : Nat → Nat) :
    ∑ i ∈ Finset.range u, (if i < n then f i else 0) = ∑ i ∈ Finset.range n, f i := by
  rw [← Finset.sum_subset (Finset.range_subset.mpr h)]
  · exact Finset.sum_congr rfl (fun i hi => if_pos (Finset.mem_range.mp hi))
  · intro i _ hni
    exact if_neg (fun hlt => hni (Finset.mem_range.mpr hlt))

/-- Splitting a sum over `[0, a + b)` at `a`. -/
theorem sum_range_add_split (a b : Nat) (f : Nat → Nat) :
    ∑ i ∈ Finset.range (a + b), f i
      = (∑ i ∈ Finset.range a, f i) + ∑ j ∈ Finset.range b, f (a + j) := by
  induction b with
  | zero => simp
  | succ m ih =>
    rw [← Nat.add_assoc, Finset.sum_range_succ, ih, Finset.sum_range_succ, Nat.add_assoc]

/-- A double sum over `u` blocks of `K` consecutive indices is a sum over
`[0, u * K)`. -/
theorem sum_blocks (u K : Nat) (f : Nat → Nat) :
    ∑ g ∈ Finset.range u, ∑ j ∈ Finset.range K, f (g * K + j)
      = ∑ i ∈ Finset.range (u * K), f i := by
  induction u with
  | zero => simp
  | succ m ih =>
    rw [Finset.sum_range_succ, ih, Nat.succ_mul, sum_range_add_split]

/-! ### Kernel correctness lemmas -/

/-- The dummy kernel computes the wraparound sum of the whole array. -/
theorem sum_dummy_correct (as : List Nat) :
    sum_dummy as as.length = as.sum % M32 := by
  have h : (List.range as.length).map (elemAt as) = as := map_getD_range as
  unfold sum_dummy
  rw [h]
  exact sumU32_eq_sum_mod as

/-- The global-atomic kernel computes the wraparound sum whenever the unit
count covers the array. -/
theorem sum_global_atomic_correct {as : List Nat} {u : Nat} (h : as.length ≤ u) :
    sum_global_atomic as as.length u = as.sum % M32 := by
  unfold sum_global_atomic
  simp only [guardedElem]
  rw [sum_range_guard h]
  simp only [elemAt]
  rw [sum_range_getD]

/-- In the strided loop, the inner per-unit loop reduces to the unit's own
element: every stride step beyond the first lands at or past `u ≥ n`. -/
theorem strided_inner {n u K : Nat} (gid : Nat) (hK : 1 ≤ K) (hnu : n ≤ u) (f : Nat → Nat) :
    (∑ j ∈ Finset.range K, if gid + j * u < n then f (gid + j * u) else 0)
      = if gid < n then f gid else 0 := by
  have h0 : (0 : Nat) ∈ Finset.range K := Finset.mem_range.mpr hK
  have hz : ∀ b ∈ Finset.range K, b ≠ 0 →
      (if gid + b * u < n then f (gid + b * u) else 0) = 0 := by
    intro b _ hb
    have h2 : u ≤ b * u := Nat.le_mul_of_pos_left u (Nat.pos_of_ne_zero hb)
    exact if_neg (by omega)
  rw [Finset.sum_eq_single_of_mem 0 h0 hz]
  simp

/-- The strided-loop kernel computes the wraparound sum whenever the unit
count covers the array and each unit handles at least one value. -/
theorem sum_loop_correct {as : List Nat} {u K : Nat} (hK : 1 ≤ K) (h : as.length ≤ u) :
    sum_loop as as.length u K = as.sum % M32 := by
  unfold sum_loop
  simp only [guardedElem]
  rw [Finset.sum_congr rfl (fun gid _ => strided_inner gid hK h (elemAt as)),
    sum_range_guard h]
  simp only [elemAt]
  rw [sum_range_getD]

/-- The coalesced-loop kernel computes the wraparound sum whenever the unit
count covers the array and each unit handles at least one value. -/
theorem sum_loop_coalesced_correct {as : List Nat} {u K : Nat} (hK : 1 ≤ K)
    (h : as.length ≤ u) :
    sum_loop_coalesced as as.length u K = as.sum % M32 := by
  unfold sum_loop_coalesced
  simp only [guardedElem, elemAt]
  rw [sum_blocks u K (fun i => if i < as.length then as.getD i 0 else 0),
    sum_range_guard (le_trans h (Nat.le_mul_of_pos_right u hK)), sum_range_getD]

/-- Summing the per-group guarded contributions over all groups recovers the
plain array sum when the unit count covers the array and is a whole number
of groups. -/
theorem sum_group_partials {as : List Nat} {u : Nat} (h : as.length ≤ u)
    (hd : workGroupSize ∣ u) :
    (∑ g ∈ Finset.range (u / workGroupSize), ∑ lid ∈ Finset.range workGroupSize,
      guardedElem as as.length (g * workGroupSize + lid)) = as.sum := by
  simp only [guardedElem, elemAt]
  rw [sum_blocks (u / workGroupSize) workGroupSize
      (fun i => if i < as.length then as.getD i 0 else 0),
    Nat.div_mul_cancel hd, sum_range_guard h, sum_range_getD]

/-- The local-memory kernel computes the wraparound sum whenever the unit
count covers the array and is a whole number of groups. -/
theorem sum_local_memory_correct {as : List Nat} {u : Nat} (h : as.length ≤ u)
    (hd : workGroupSize ∣ u) :
    sum_local_memory as as.length u = as.sum % M32 := by
  unfold sum_local_memory groupPartial
  rw [← Finset.sum_nat_mod, sum_group_partials h hd]

/-- A halving step halves the list's length. -/
theorem halveStep_length (l : List Nat) : (halveStep l).length = l.length / 2 := by
  unfold halveStep
  simp

/-- A halving step preserves the sum modulo `2 ^ 32` on even-length lists. -/
theorem halveStep_sum_mod (l : List Nat) (k : Nat) (hl : l.length = 2 * k) :
    (halveStep l).sum % M32 = l.sum % M32 := by
  have hk : l.length / 2 = k := by omega
  unfold halveStep
  rw [hk, ← finset_sum_range_eq_list]
  simp only [uadd32]
  rw [← Finset.sum_nat_mod, Finset.sum_add_distrib]
  have h2 : ∀ i ∈ Finset.range k, l.getD (i + k) 0 = l.getD (k + i) 0 := by
    intro i _
    rw [Nat.add_comm]
  rw [Finset.sum_congr rfl h2, ← sum_range_add_split]
  have h3 : k + k = l.length := by omega
  rw [h3, sum_range_getD]

/-- `k` halving steps reduce a `2 ^ k`-element scratch buffer to its
wraparound sum. -/
theorem treeReduce_mod : ∀ (k : Nat) (l : List Nat), l.length = 2 ^ k →
    treeReduce k l % M32 = l.sum % M32 := by
  intro k
  induction k with
  | zero =>
    intro l hl
    simp only [pow_zero] at hl
    obtain ⟨x, hx⟩ : ∃ x, l = [x] := by
      cases l with
      | nil => simp at hl
      | cons a t =>
        cases t with
        | nil => exact ⟨a, rfl⟩
        | cons b t2 => simp [List.length_cons] at hl
    subst hx
    simp [treeReduce]
  | succ m ih =>
    intro l hl
    have hlen : (halveStep l).length = 2 ^ m := by
      rw [halveStep_length, hl, pow_succ, Nat.mul_div_cancel _ (by norm_num)]
    simp only [treeReduce]
    rw [ih (halveStep l) hlen]
    exact halveStep_sum_mod l (2 ^ m) (by rw [hl, pow_succ, Nat.mul_comm])

/-- Each group stages exactly `workGroupSize` values. -/
theorem groupVals_length (as : List Nat) (n g : Nat) :
    (groupVals as n g).length = workGroupSize := by
  unfold groupVals
  simp

/-- The staged values of a group sum to that group's guarded contributions. -/
theorem groupVals_sum (as : List Nat) (n g : Nat) :
    (groupVals as n g).sum
      = ∑ lid ∈ Finset.range workGroupSize, guardedElem as n (g * workGroupSize + lid) := by
  unfold groupVals
  rw [← finset_sum_range_eq_list]

/-- The tree kernel computes the wraparound sum whenever the unit count
covers the array and is a whole number of groups. -/
theorem sum_tree_correct {as : List Nat} {u : Nat} (h : as.length ≤ u)
    (hd : workGroupSize ∣ u) :
    sum_tree as as.length u = as.sum % M32 := by
  unfold sum_tree
  rw [Finset.sum_nat_mod]
  have hg : ∀ g ∈ Finset.range (u / workGroupSize),
      treeReduce 7 (groupVals as as.length g) % M32
        = (∑ lid ∈ Finset.range workGroupSize,
            guardedElem as as.length (g * workGroupSize + lid)) % M32 := by
    intro g _
    rw [treeReduce_mod 7 _ (by rw [groupVals_length]; rfl), groupVals_sum]
  rw [Finset.sum_congr rfl hg, ← Finset.sum_nat_mod, sum_group_partials h hd]

/-! ### Launch-configuration lemmas -/

/-- The global work size is a whole number of work groups. -/
theorem global_work_size_dvd (n : Nat) : workGroupSize ∣ global_work_size n :=
  Dvd.intro_left _ rfl

/-- The global work size covers every element index. -/
theorem le_global_work_size (n : Nat) : n ≤ global_work_size n := by
  unfold global_work_size workGroupSize
  omega

/-- The global work size is the least multiple of the group size covering
the array. -/
theorem global_work_size_min {n m : Nat} (hd : workGroupSize ∣ m) (h : n ≤ m) :
    global_work_size n ≤ m := by
  unfold workGroupSize at hd
  obtain ⟨t, rfl⟩ := hd
  unfold global_work_size workGroupSize
  omega

/-- The global work size is positive exactly when the array is nonempty. -/
theorem global_work_size_zero : global_work_size 0 = 0 := by decide

/-! ### Overflow lemmas for the generated input -/

/-- Prefixes of a `Nat` list sum to at most the whole list's sum. -/
theorem take_sum_le (as : List Nat) (k : Nat) : (as.take k).sum ≤ as.sum := by
  conv_rhs => rw [← List.take_append_drop k as]
  rw [List.sum_append]
  exact Nat.le_add_right _ _

/-- A list of values each at most `b` sums to at most `b * length`. -/
theorem sum_le_of_bounded {as : List Nat} {b : Nat} (h : ∀ x ∈ as, x ≤ b) :
    as.sum ≤ b * as.length := by
  induction as with
  | nil => simp
  | cons a t ih =>
    rw [List.sum_cons, List.length_cons, Nat.mul_succ]
    have ha : a ≤ b := h a (List.mem_cons_self a t)
    have ht := ih (fun x hx => h x (List.mem_cons_of_mem a hx))
    omega

/-- When the plain sum fits in 32 bits, wraparound accumulation agrees with
it on every prefix: no intermediate addition ever wraps. -/
theorem sumU32_take_no_wrap {as : List Nat} (h : as.sum ≤ maxUint) (k : Nat) :
    sumU32 (as.take k) = (as.take k).sum := by
  rw [sumU32_eq_sum_mod]
  have hlt : (as.take k).sum < M32 := by
    have h1 := take_sum_le as k
    have h2 : maxUint < M32 := by decide
    omega
  exact Nat.mod_eq_of_lt hlt

/-! ### OpenMP reduction lemma -/

/-- Modelled from the spec: the OpenMP `reduction(+:sum)` loop (lines 52-57)
partitions the iteration space into per-thread chunks, each thread
accumulates its chunk with wraparound addition, and the partial sums are
combined in an unspecified order.  Whatever the partition into chunks and
whatever the combination order, the result is the sequential wraparound
sum. -/
theorem ompSchedule_sum {as : List Nat} {chunks : List (List Nat)} {order : List Nat}
    (hchunks : chunks.flatten = as) (horder : order.Perm (chunks.map sumU32)) :
    sumU32 order = sumU32 as := by
  rw [sumU32_eq_sum_mod, sumU32_eq_sum_mod, horder.sum_eq]
  have h1 : chunks.map sumU32 = (chunks.map List.sum).map (· % M32) := by
    rw [List.map_map]
    exact List.map_congr_left (fun c _ => sumU32_eq_sum_mod c)
  rw [h1, ← List.sum_nat_mod, ← List.sum_flatten, hchunks]

/-! ### Harness trace lemmas -/

/-- `raiseFail` on equal values: normal return, nothing printed. -/
theorem raiseFail_of_eq {a b : Nat} (h : a = b) (m f : String) (l : Nat) :
    raiseFail a b m f l = (none, []) := by
  subst h
  simp [raiseFail]

/-- `raiseFail` on distinct values: throws, after printing the diagnostic. -/
theorem raiseFail_of_ne {a b : Nat} (h : a ≠ b) (m f : String) (l : Nat) :
    raiseFail a b m f l
      = (some ⟨m, a, b, f, l⟩, [failMessageLine ⟨m, a, b, f, l⟩]) := by
  simp [raiseFail, h]

/-- A trial whose result matches extends its events with the lap mark. -/
theorem trialSegment_of_eq (refv : Nat) (name : String) :
    trialSegment refv name refv = kernelTrial refv name refv ++ [Event.lapEnd] := by
  simp [trialSegment]

/-- A trial whose result mismatches has no lap mark: the throw happens
before `t.nextLap()`. -/
theorem trialSegment_of_ne {refv v : Nat} (h : v ≠ refv) (name : String) :
    trialSegment refv name v = kernelTrial refv name v := by
  simp [trialSegment, h]

/-- The event trace of the trial loop: one segment per executed trial. -/
theorem runTrials_trace (refv : Nat) (name : String) :
    ∀ vs : List Nat, (runTrials refv name vs).1
      = ((executedOutcomes refv vs).map (trialSegment refv name)).flatten := by
  intro vs
  induction vs with
  | nil => simp [runTrials, executedOutcomes]
  | cons v rest ih =>
    by_cases h : v = refv
    · rw [runTrials, raiseFail_of_eq h.symm]
      simp only [executedOutcomes, if_pos h, List.map_cons, List.flatten_cons]
      rw [h, trialSegment_of_eq]
      simp [ih]
    · rw [runTrials, raiseFail_of_ne (fun e => h e.symm)]
      simp only [executedOutcomes, if_neg h, List.map_cons, List.map_nil,
        List.flatten_cons, List.flatten_nil, List.append_nil]
      rw [trialSegment_of_ne h]

/-- A trial loop in which every result matches completes all trials and
throws nothing. -/
theorem runTrials_all_eq (refv : Nat) (name : String) :
    ∀ vs : List Nat, (∀ w ∈ vs, w = refv) →
    runTrials refv name vs = ((vs.map (trialSegment refv name)).flatten, none) := by
  intro vs
  induction vs with
  | nil => intro _; simp [runTrials]
  | cons v rest ih =>
    intro h
    have hv : v = refv := h v (List.mem_cons_self v rest)
    rw [runTrials, raiseFail_of_eq hv.symm]
    simp only
    rw [ih (fun w hw => h w (List.mem_cons_of_mem v hw))]
    rw [hv]
    simp [trialSegment_of_eq]

/-- A trial loop stops at the first mismatching result: the trace contains
exactly the matching prefix's timed segments plus the failing trial's
events (no lap), and the thrown failure names the kernel, the detection
site, and both values. -/
theorem runTrials_fail (refv : Nat) (name : String) {v : Nat} (hv : v ≠ refv) :
    ∀ pre : List Nat, (∀ w ∈ pre, w = refv) → ∀ post : List Nat,
    runTrials refv name (pre ++ v :: post)
      = ((pre.map (trialSegment refv name)).flatten ++ kernelTrial refv name v,
         some ⟨name, refv, v, srcFileName, detectionLine⟩) := by
  intro pre
  induction pre with
  | nil =>
    intro _ post
    rw [List.nil_append, runTrials, raiseFail_of_ne (fun e => hv e.symm)]
    simp
  | cons w t ih =>
    intro hpre post
    have hw : w = refv := hpre w (List.mem_cons_self w t)
    rw [List.cons_append, runTrials, raiseFail_of_eq hw.symm]
    simp only
    rw [ih (fun x hx => hpre x (List.mem_cons_of_mem w hx)) post]
    rw [hw]
    simp [trialSegment_of_eq]

/-- A fully successful run produces one block per kernel, in order, and
throws nothing. -/
theorem runKernels_success (refv iters : Nat) :
    ∀ names : List String,
    runKernels refv (names.map (fun nm => (nm, List.replicate iters refv)))
      = ((names.map (kernelBlock refv iters)).flatten, none) := by
  intro names
  induction names with
  | nil => simp [runKernels]
  | cons name rest ih =>
    rw [List.map_cons, runKernels,
      runTrials_all_eq refv name (List.replicate iters refv)
        (fun w hw => List.eq_of_mem_replicate hw)]
    simp only
    rw [ih]
    simp [kernelBlock, List.map_replicate]

/-- The success-run trace in closed form. -/
theorem successRun_trace (refv iters : Nat) (names : List String) :
    successRun refv names iters = ((names.map (kernelBlock refv iters)).flatten, none) :=
  runKernels_success refv iters names

/-- When one kernel's trial mismatches, the whole run aborts there: the
trace is exactly the preceding kernels' blocks, this kernel's compilation,
its matching trials, and the failing trial; nothing of `post` or `rest`
executes, and the failure carries the kernel name, the detection site, and
both values. -/
theorem runKernels_fail (refv : Nat) (name : String) {v : Nat} (hv : v ≠ refv)
    (pre post : List Nat) (hpre : ∀ w ∈ pre, w = refv) :
    ∀ good : List (String × List Nat), (∀ p ∈ good, ∀ w ∈ p.2, w = refv) →
    ∀ rest : List (String × List Nat),
    runKernels refv (good ++ (name, pre ++ v :: post) :: rest)
      = ((good.map (fun p => Event.compile p.1 :: (p.2.map (trialSegment refv p.1)).flatten)).flatten
          ++ Event.compile name
            :: ((pre.map (trialSegment refv name)).flatten ++ kernelTrial refv name v),
         some ⟨name, refv, v, srcFileName, detectionLine⟩) := by
  intro good
  induction good with
  | nil =>
    intro _ rest
    rw [List.nil_append, runKernels, runTrials_fail refv name hv pre hpre post]
    simp
  | cons p t ih =>
    intro hgood rest
    obtain ⟨pname, pouts⟩ := p
    rw [List.cons_append, runKernels,
      runTrials_all_eq refv pname pouts
        (fun w hw => hgood (pname, pouts) (List.mem_cons_self _ t) w hw)]
    simp only
    rw [ih (fun q hq => hgood q (List.mem_cons_of_mem _ hq)) rest]
    simp

/-! ### Counting and position lemmas on the trace -/

/-- A trial segment contains no compilation event: compilation is never
part of a measured lap. -/
theorem trialSegment_no_compile (refv : Nat) (name : String) (v : Nat) (s : String) :
    Event.compile s ∉ trialSegment refv name v := by
  by_cases h : v = refv <;> simp [trialSegment, kernelTrial, h]

/-- No compilation event occurs anywhere in a kernel's executed trials. -/
theorem flatten_replicate_no_compile (refv : Nat) (name : String) (iters : Nat) (s : String) :
    Event.compile s ∉ (List.replicate iters (trialSegment refv name refv)).flatten := by
  intro hmem
  obtain ⟨l, hl, hm⟩ := List.mem_flatten.mp hmem
  rw [List.eq_of_mem_replicate hl] at hm
  exact trialSegment_no_compile refv name refv s hm

/-- A kernel's block contains exactly one compilation of itself and none of
any other kernel. -/
theorem kernelBlock_count_compile (refv iters : Nat) (name nm : String) :
    (kernelBlock refv iters name).count (Event.compile nm)
      = if nm = name then 1 else 0 := by
  unfold kernelBlock
  rw [List.count_cons,
    List.count_eq_zero.mpr (flatten_replicate_no_compile refv name iters nm)]
  by_cases h : nm = name <;> simp [h]
  exact fun e => h e.symm

/-- A kernel absent from the name list is never compiled in the trace. -/
theorem successTrace_count_compile_zero (refv iters : Nat) (nm : String) :
    ∀ names : List String, nm ∉ names →
    ((names.map (kernelBlock refv iters)).flatten).count (Event.compile nm) = 0 := by
  intro names
  induction names with
  | nil => intro _; simp
  | cons name rest ih =>
    intro h
    rw [List.map_cons, List.flatten_cons, List.count_append, kernelBlock_count_compile,
      if_neg (fun e => h (List.mem_cons.mpr (Or.inl e))),
      ih (fun hm => h (List.mem_cons_of_mem name hm))]

/-- Every listed kernel is compiled exactly once in a successful run. -/
theorem successTrace_count_compile (refv iters : Nat) :
    ∀ names : List String, names.Nodup → ∀ nm ∈ names,
    ((names.map (kernelBlock refv iters)).flatten).count (Event.compile nm) = 1 := by
  intro names
  induction names with
  | nil => intro _ nm h; simp at h
  | cons name rest ih =>
    intro hnd nm hm
    rw [List.map_cons, List.flatten_cons, List.count_append, kernelBlock_count_compile]
    rcases List.mem_cons.mp hm with h | h
    · rw [if_pos h, successTrace_count_compile_zero refv iters nm rest
        (h ▸ (List.nodup_cons.mp hnd).1)]
    · have hne : nm ≠ name := by
        intro e
        exact (List.nodup_cons.mp hnd).1 (e ▸ h)
      rw [if_neg hne, ih (List.nodup_cons.mp hnd).2 nm h, Nat.zero_add]

/-- An execution event inside a trial segment belongs to that segment's
kernel. -/
theorem trialSegment_exec_name {refv v w : Nat} {nm : String} (name : String)
    (h : Event.kernelExec nm w ∈ trialSegment refv name v) : nm = name := by
  by_cases hv : v = refv <;> simp [trialSegment, kernelTrial, hv] at h <;> exact h.1

/-- A kernel's block contains no execution event of a different kernel. -/
theorem kernelBlock_no_exec_of_ne {refv iters : Nat} {name nm : String} (hne : nm ≠ name)
    (v : Nat) : Event.kernelExec nm v ∉ kernelBlock refv iters name := by
  intro hmem
  rcases List.mem_cons.mp hmem with h | h
  · exact Event.noConfusion h
  · obtain ⟨l, hl, hm⟩ := List.mem_flatten.mp h
    rw [List.eq_of_mem_replicate hl] at hm
    exact hne (trialSegment_exec_name name hm)

/-- Each trial segment contains exactly one execution of its own kernel and
none of any other. -/
theorem trialSegment_countP_exec (refv v : Nat) (name nm : String) :
    (trialSegment refv name v).countP (isExecOf nm) = if name = nm then 1 else 0 := by
  by_cases hv : v = refv <;> by_cases h : name = nm <;>
    simp [trialSegment, kernelTrial, isExecOf, hv, h]

/-- The executed trials of one kernel contain its execution event once per
iteration. -/
theorem flatten_replicate_countP_exec (refv iters : Nat) (name nm : String) :
    ((List.replicate iters (trialSegment refv name refv)).flatten).countP (isExecOf nm)
      = iters * (if name = nm then 1 else 0) := by
  induction iters with
  | zero => simp
  | succ m ih =>
    rw [List.replicate_succ, List.flatten_cons, List.countP_append,
      trialSegment_countP_exec, ih, Nat.succ_mul, Nat.add_comm]

/-- Execution counts over a whole kernel block. -/
theorem kernelBlock_countP_exec (refv iters : Nat) (name nm : String) :
    (kernelBlock refv iters name).countP (isExecOf nm)
      = iters * (if name = nm then 1 else 0) := by
  unfold kernelBlock
  rw [List.countP_cons, flatten_replicate_countP_exec]
  simp [isExecOf]

/-- A kernel absent from the name list never executes in the trace. -/
theorem successTrace_countP_exec_zero (refv iters : Nat) (nm : String) :
    ∀ names : List String, nm ∉ names →
    ((names.map (kernelBlock refv iters)).flatten).countP (isExecOf nm) = 0 := by
  intro names
  induction names with
  | nil => intro _; simp
  | cons name rest ih =>
    intro h
    rw [List.map_cons, List.flatten_cons, List.countP_append, kernelBlock_countP_exec,
      if_neg (fun e => h (List.mem_cons.mpr (Or.inl e.symm))),
      ih (fun hm => h (List.mem_cons_of_mem name hm))]
    simp

/-- In a successful run, every listed kernel's compilation occurs before
any of its executions, and all `iters` of its executions come after it. -/
theorem successTrace_compile_position (refv iters : Nat) :
    ∀ names : List String, names.Nodup → ∀ nm ∈ names,
    ∃ A B, (names.map (kernelBlock refv iters)).flatten = A ++ Event.compile nm :: B
      ∧ (∀ v, Event.kernelExec nm v ∉ A)
      ∧ B.countP (isExecOf nm) = iters := by
  intro names
  induction names with
  | nil => intro _ nm h; simp at h
  | cons name rest ih =>
    intro hnd nm hm
    rcases List.mem_cons.mp hm with h | h
    · subst h
      refine ⟨[], (List.replicate iters (trialSegment refv nm refv)).flatten
          ++ (rest.map (kernelBlock refv iters)).flatten, ?_, ?_, ?_⟩
      · simp [kernelBlock]
      · intro v hv
        simp at hv
      · rw [List.countP_append, flatten_replicate_countP_exec, if_pos rfl,
          successTrace_countP_exec_zero refv iters nm rest (List.nodup_cons.mp hnd).1]
        simp
    · have hne : nm ≠ name := by
        intro e
        exact (List.nodup_cons.mp hnd).1 (e ▸ h)
      obtain ⟨A, B, hAB, hA, hB⟩ := ih (List.nodup_cons.mp hnd).2 nm h
      refine ⟨kernelBlock refv iters name ++ A, B, ?_, ?_, hB⟩
      · rw [List.map_cons, List.flatten_cons, hAB, List.append_assoc]
      · intro v hv
        rcases List.mem_append.mp hv with h2 | h2
        · exact kernelBlock_no_exec_of_ne hne v h2
        · exact hA v h2

/-! ### Result-cell discipline lemmas -/

/-- Within one trial the result cell is written exactly twice: the reset
writes 0, then the strategy writes its result — in that order. -/
theorem writtenValues_trialSegment (refv : Nat) (name : String) (v : Nat) :
    writtenValues (trialSegment refv name v) = [0, v] := by
  by_cases h : v = refv <;> simp [trialSegment, kernelTrial, writtenValues, h]

/-- The strategy writes the result cell exactly once per trial. -/
theorem trialSegment_one_strategy_write (refv : Nat) (name : String) (v : Nat) :
    (trialSegment refv name v).countP isStrategyWrite = 1 := by
  by_cases h : v = refv <;> simp [trialSegment, kernelTrial, isStrategyWrite, h]

/-- A trial's first four events are: reset, execute, read back, validate. -/
theorem trialSegment_take_four (refv : Nat) (name : String) (v : Nat) :
    (trialSegment refv name v).take 4
      = [Event.resetResult, Event.kernelExec name v, Event.readBack v,
         Event.validate refv v] := by
  by_cases h : v = refv <;> simp [trialSegment, kernelTrial, h]

/-! ### Claim theorems -/

/-- C1: For every strategy (CPU sequential, CPU OpenMP-parallel with any
chunk partition and combination order, and each of the six accelerator
kernels launched at the program's global work size) and for every trial,
the computed sum equals the oracle `reference_sum`, itself computed once by
sequential accumulation with wraparound unsigned 32-bit addition.  Each
strategy is a pure function of the input, so every trial yields the value
stated here. -/
theorem c1_all_strategies_match_oracle (as : List Nat) (K : Nat) (hK : 1 ≤ K) :
    cpuSequentialSum as = reference_sum as
  ∧ (∀ (chunks : List (List Nat)) (order : List Nat),
      chunks.flatten = as → order.Perm (chunks.map sumU32) →
      sumU32 order = reference_sum as)
  ∧ sum_dummy as as.length = reference_sum as
  ∧ sum_global_atomic as as.length (global_work_size as.length) = reference_sum as
  ∧ sum_loop as as.length (global_work_size as.length) K = reference_sum as
  ∧ sum_loop_coalesced as as.length (global_work_size as.length) K = reference_sum as
  ∧ sum_local_memory as as.length (global_work_size as.length) = reference_sum as
  ∧ sum_tree as as.length (global_work_size as.length) = reference_sum as := by
  have href : reference_sum as = as.sum % M32 := sumU32_eq_sum_mod as
  have hle := le_global_work_size as.length
  have hdvd := global_work_size_dvd as.length
  refine ⟨rfl, ?_, ?_, ?_, ?_, ?_, ?_, ?_⟩
  · intro chunks order h1 h2
    rw [ompSchedule_sum h1 h2]
    rfl
  · rw [sum_dummy_correct, href]
  · rw [sum_global_atomic_correct hle, href]
  · rw [sum_loop_correct hK hle, href]
  · rw [sum_loop_coalesced_correct hK hle, href]
  · rw [sum_local_memory_correct hle hdvd, href]
  · rw [sum_tree_correct hle hdvd, href]

/-- Witness for C1 at the concrete array `[3, 5, 7]` with one value per
work item. -/
theorem c1_all_strategies_match_oracle_witness :
    sum_dummy [3, 5, 7] 3 = reference_sum [3, 5, 7]
  ∧ sum_tree [3, 5, 7] 3 (global_work_size 3) = reference_sum [3, 5, 7] := by
  have h := c1_all_strategies_match_oracle [3, 5, 7] 1 (by decide)
  exact ⟨h.2.2.1, h.2.2.2.2.2.2.2⟩

/-- C2: the OpenMP-parallel strategy's final value equals the oracle for
every partition of the array into per-thread chunks and every order of
combining the partial sums — wraparound 32-bit addition is associative and
commutative, so any permutation and regrouping of the additions yields the
same result as left-to-right sequential accumulation. -/
theorem c2_omp_any_schedule (as : List Nat) (chunks : List (List Nat)) (order : List Nat)
    (hchunks : chunks.flatten = as) (horder : order.Perm (chunks.map sumU32)) :
    sumU32 order = reference_sum as := by
  rw [ompSchedule_sum hchunks horder]
  rfl

/-- Witness for C2: `[1, 2, 3, 4]` split into chunks `[1, 2]` and `[3, 4]`
whose partial sums are combined in reversed order. -/
theorem c2_omp_any_schedule_witness :
    sumU32 [sumU32 [3, 4], sumU32 [1, 2]] = reference_sum [1, 2, 3, 4] :=
  c2_omp_any_schedule [1, 2, 3, 4] [[1, 2], [3, 4]]
    [sumU32 [3, 4], sumU32 [1, 2]] (by decide) (by decide)

/-- C3: the generation bound `max_uint32 / N` (exact integer division)
satisfies `bound * N ≤ max_uint32`, so any array of `N = 100,000,000`
elements each at most the bound has true sum at most `max_uint32`; hence
wraparound is never triggered at any step of the oracle accumulation
(every prefix accumulates to its plain sum). -/
theorem c3_generation_bound_no_wraparound :
    elemBound * nElements ≤ maxUint
  ∧ ∀ as : List Nat, as.length = nElements → (∀ x ∈ as, x ≤ elemBound) →
      as.sum ≤ maxUint ∧ ∀ k : Nat, sumU32 (as.take k) = (as.take k).sum := by
  refine ⟨by decide, ?_⟩
  intro as hlen hbound
  have hsum : as.sum ≤ maxUint := by
    have h1 := sum_le_of_bounded hbound
    rw [hlen] at h1
    have h2 : elemBound * nElements ≤ maxUint := by decide
    omega
  exact ⟨hsum, sumU32_take_no_wrap hsum⟩

/-- Witness for C3 at the constant array of 100,000,000 sevens. -/
theorem c3_generation_bound_no_wraparound_witness :
    (List.replicate nElements 7).sum ≤ maxUint
  ∧ sumU32 ((List.replicate nElements 7).take 5)
      = ((List.replicate nElements 7).take 5).sum := by
  have h := c3_generation_bound_no_wraparound.2 (List.replicate nElements 7)
    (by simp) (fun x hx => by rw [List.eq_of_mem_replicate hx]; decide)
  exact ⟨h.1, h.2 5⟩

/-- C4: whenever a trial's result differs from the reference sum, the run
aborts immediately: the thrown failure names the failing kernel, the file
and line of the `EXPECT_THE_SAME` detection point, and both mismatched
values, the diagnostic line printed contains all of these, and the trace
contains exactly the events up to the failing trial — no subsequent trial
or strategy executes. -/
theorem c4_mismatch_aborts_run (refv v : Nat) (hv : v ≠ refv) (name : String)
    (pre post : List Nat) (hpre : ∀ w ∈ pre, w = refv)
    (good rest : List (String × List Nat))
    (hgood : ∀ p ∈ good, ∀ w ∈ p.2, w = refv) :
    (runKernels refv (good ++ (name, pre ++ v :: post) :: rest)).2
        = some ⟨name, refv, v, srcFileName, detectionLine⟩
  ∧ (runKernels refv (good ++ (name, pre ++ v :: post) :: rest)).1
        = (good.map (fun p =>
            Event.compile p.1 :: (p.2.map (trialSegment refv p.1)).flatten)).flatten
          ++ Event.compile name
            :: ((pre.map (trialSegment refv name)).flatten ++ kernelTrial refv name v)
  ∧ failMessageLine ⟨name, refv, v, srcFileName, detectionLine⟩
        = name ++ " But " ++ toString refv ++ " != " ++ toString v ++ ", "
          ++ srcFileName ++ ":" ++ toString detectionLine := by
  have h := runKernels_fail refv name hv pre post hpre good hgood rest
  exact ⟨by rw [h], by rw [h], rfl⟩

/-- Witness for C4: kernel `"k"` computes 1 on its first trial and 0 on its
second while the reference sum is 1. -/
theorem c4_mismatch_aborts_run_witness :
    (runKernels 1 [("k", [1, 0])]).2 = some ⟨"k", 1, 0, srcFileName, detectionLine⟩ := by
  have h := c4_mismatch_aborts_run 1 0 (by decide) "k" [1] []
    (by intro w hw; simpa using hw) [] [] (by intro p hp; simp at hp)
  exact h.1

/-- C5: for every input size `n`, the launch uses a fixed group size of 128
units and a total unit count `global_work_size n` that is the least
multiple of 128 at least `n` (so every element index below `n` is covered),
and any unit whose index is at least `n` contributes nothing in any kernel
— its single guarded access, all its strided accesses, and all its
contiguous accesses yield 0. -/
theorem c5_launch_configuration (n : Nat) (as : List Nat) (K : Nat) (hK : 1 ≤ K) :
    workGroupSize = 128
  ∧ workGroupSize ∣ global_work_size n
  ∧ n ≤ global_work_size n
  ∧ (∀ m : Nat, workGroupSize ∣ m → n ≤ m → global_work_size n ≤ m)
  ∧ (∀ gid : Nat, n ≤ gid → guardedElem as n gid = 0)
  ∧ (∀ gid : Nat, n ≤ gid →
      (∑ j ∈ Finset.range K, guardedElem as n (gid + j * global_work_size n)) = 0)
  ∧ (∀ gid : Nat, n ≤ gid →
      (∑ j ∈ Finset.range K, guardedElem as n (gid * K + j)) = 0) := by
  refine ⟨rfl, global_work_size_dvd n, le_global_work_size n,
    fun m hd h => global_work_size_min hd h, ?_, ?_, ?_⟩
  · intro gid hgid
    exact if_neg (by omega)
  · intro gid hgid
    refine Finset.sum_eq_zero (fun j _ => ?_)
    exact if_neg (by omega)
  · intro gid hgid
    refine Finset.sum_eq_zero (fun j _ => ?_)
    have h2 : gid ≤ gid * K := Nat.le_mul_of_pos_right gid hK
    exact if_neg (by omega)

/-- Witness for C5 at `n = 3`, array `[5, 6, 7]`, two values per work
item. -/
theorem c5_launch_configuration_witness :
    workGroupSize ∣ global_work_size 3
  ∧ 3 ≤ global_work_size 3
  ∧ guardedElem [5, 6, 7] 3 5 = 0 := by
  have h := c5_launch_configuration 3 [5, 6, 7] 2 (by decide)
  exact ⟨h.2.1, h.2.2.1, h.2.2.2.2.1 5 (by decide)⟩

/-- C6: on the empty input every strategy returns 0, and on a one-element
input every strategy returns that element (all accesses guarded, all
out-of-range units contributing nothing). -/
theorem c6_boundary_cases (K : Nat) (hK : 1 ≤ K) (x : Nat) (hx : x < M32) :
    (reference_sum [] = 0
      ∧ cpuSequentialSum [] = 0
      ∧ (∀ (chunks : List (List Nat)) (order : List Nat),
          chunks.flatten = ([] : List Nat) → order.Perm (chunks.map sumU32) →
          sumU32 order = 0)
      ∧ sum_dummy [] 0 = 0
      ∧ sum_global_atomic [] 0 (global_work_size 0) = 0
      ∧ sum_loop [] 0 (global_work_size 0) K = 0
      ∧ sum_loop_coalesced [] 0 (global_work_size 0) K = 0
      ∧ sum_local_memory [] 0 (global_work_size 0) = 0
      ∧ sum_tree [] 0 (global_work_size 0) = 0)
  ∧ (reference_sum [x] = x
      ∧ cpuSequentialSum [x] = x
      ∧ (∀ (chunks : List (List Nat)) (order : List Nat),
          chunks.flatten = [x] → order.Perm (chunks.map sumU32) →
          sumU32 order = x)
      ∧ sum_dummy [x] 1 = x
      ∧ sum_global_atomic [x] 1 (global_work_size 1) = x
      ∧ sum_loop [x] 1 (global_work_size 1) K = x
      ∧ sum_loop_coalesced [x] 1 (global_work_size 1) K = x
      ∧ sum_local_memory [x] 1 (global_work_size 1) = x
      ∧ sum_tree [x] 1 (global_work_size 1) = x) := by
  have h0 := c1_all_strategies_match_oracle [] K hK
  have h1 := c1_all_strategies_match_oracle [x] K hK
  have href0 : reference_sum ([] : List Nat) = 0 := rfl
  have href1 : reference_sum [x] = x := by
    show (0 + x) % M32 = x
    rw [Nat.zero_add]
    exact Nat.mod_eq_of_lt hx
  constructor
  · refine ⟨href0, href0, ?_, ?_, ?_, ?_, ?_, ?_, ?_⟩
    · intro chunks order hc ho
      rw [(h0.2.1 chunks order hc ho : _ = reference_sum ([] : List Nat)), href0]
    · simpa [href0] using h0.2.2.1
    · simpa [href0] using h0.2.2.2.1
    · simpa [href0] using h0.2.2.2.2.1
    · simpa [href0] using h0.2.2.2.2.2.1
    · simpa [href0] using h0.2.2.2.2.2.2.1
    · simpa [href0] using h0.2.2.2.2.2.2.2
  · refine ⟨href1, href1, ?_, ?_, ?_, ?_, ?_, ?_, ?_⟩
    · intro chunks order hc ho
      rw [(h1.2.1 chunks order hc ho : _ = reference_sum [x]), href1]
    · simpa [href1] using h1.2.2.1
    · simpa [href1] using h1.2.2.2.1
    · simpa [href1] using h1.2.2.2.2.1
    · simpa [href1] using h1.2.2.2.2.2.1
    · simpa [href1] using h1.2.2.2.2.2.2.1
    · simpa [href1] using h1.2.2.2.2.2.2.2

/-- Witness for C6 at `K = 1`, `x = 5`. -/
theorem c6_boundary_cases_witness :
    sum_dummy [] 0 = 0 ∧ sum_tree [5] 1 (global_work_size 1) = 5 := by
  have h := c6_boundary_cases 1 (by decide) 5 (by decide)
  exact ⟨h.1.2.2.2.1, h.2.2.2.2.2.2.2.2.2⟩

/-- C7: before every trial of every strategy the single-scalar result cell
is reset to zero, and it is written exactly once per trial by the active
strategy, before being read back and compared to the reference sum: the
trial loop's trace is one segment per executed trial, each segment writes
the cell exactly the values `[0, v]` (reset, then the strategy's single
write), and its events run reset → execute → read back → validate. -/
theorem c7_result_cell_discipline (refv : Nat) (name : String) (vs : List Nat) :
    (runTrials refv name vs).1
        = ((executedOutcomes refv vs).map (trialSegment refv name)).flatten
  ∧ ∀ v : Nat,
      writtenValues (trialSegment refv name v) = [0, v]
    ∧ (trialSegment refv name v).countP isStrategyWrite = 1
    ∧ (trialSegment refv name v).take 4
        = [Event.resetResult, Event.kernelExec name v, Event.readBack v,
           Event.validate refv v] :=
  ⟨runTrials_trace refv name vs, fun v =>
    ⟨writtenValues_trialSegment refv name v,
     trialSegment_one_strategy_write refv name v,
     trialSegment_take_four refv name v⟩⟩

/-- C8: running the same strategy twice on the same input yields the same
32-bit sum.  The CPU sequential strategy and the kernels are pure functions
of the array, so their two-run equality is definitional; the OpenMP
strategy may use a different chunk partition and combination order on each
run, yet both runs produce the oracle value, hence the same result. -/
theorem c8_two_runs_same_result (as : List Nat)
    (chunks1 chunks2 : List (List Nat)) (order1 order2 : List Nat)
    (h1 : chunks1.flatten = as) (ho1 : order1.Perm (chunks1.map sumU32))
    (h2 : chunks2.flatten = as) (ho2 : order2.Perm (chunks2.map sumU32)) :
    sumU32 order1 = sumU32 order2
  ∧ cpuSequentialSum as = cpuSequentialSum as
  ∧ sum_dummy as as.length = sum_dummy as as.length := by
  refine ⟨?_, rfl, rfl⟩
  rw [ompSchedule_sum h1 ho1, ompSchedule_sum h2 ho2]

/-- Witness for C8: two different schedules over `[1, 2, 3, 4]`. -/
theorem c8_two_runs_same_result_witness :
    sumU32 [sumU32 [3, 4], sumU32 [1, 2]] = sumU32 [sumU32 [1, 2, 3], sumU32 [4]] := by
  have h := c8_two_runs_same_result [1, 2, 3, 4] [[1, 2], [3, 4]] [[1, 2, 3], [4]]
    [sumU32 [3, 4], sumU32 [1, 2]] [sumU32 [1, 2, 3], sumU32 [4]]
    (by decide) (by decide) (by decide) (by decide)
  exact h.1

/-- C9: `raiseFail a b message filename line` throws exactly when `a ≠ b`,
and on `a = b` it returns normally having produced no output. -/
theorem c9_raiseFail_iff (a b : Nat) (m f : String) (l : Nat) :
    ((raiseFail a b m f l).1 = some ⟨m, a, b, f, l⟩ ↔ a ≠ b)
  ∧ ((raiseFail a b m f l).1 = none ↔ a = b)
  ∧ (a = b → raiseFail a b m f l = (none, [])) := by
  by_cases h : a = b
  · subst h
    simp [raiseFail]
  · simp [raiseFail, h]

/-- Witness for C9 at equal and unequal concrete values. -/
theorem c9_raiseFail_iff_witness :
    (raiseFail 2 2 "msg" "file" 3).1 = none
  ∧ (raiseFail 1 2 "msg" "file" 3).1 = some ⟨"msg", 1, 2, "file", 3⟩ := by
  have heq := c9_raiseFail_iff 2 2 "msg" "file" 3
  have hne := c9_raiseFail_iff 1 2 "msg" "file" 3
  exact ⟨heq.2.1.mpr rfl, hne.1.mpr (by decide)⟩

/-- C10: in the program's run (its six kernels, ten trials each, every
trial matching the reference), each kernel is compiled exactly once,
strictly before the first of its trials executes; all ten of its
executions come after its compilation; and no measured lap contains a
compilation — each trial covers only reset, kernel execution, readback and
validation. -/
theorem c10_compile_once_before_trials (refv : Nat) (nm : String)
    (hm : nm ∈ kernel_names) :
    ((successRun refv kernel_names benchmarkingIters).1.count (Event.compile nm) = 1)
  ∧ (∃ A B, (successRun refv kernel_names benchmarkingIters).1
        = A ++ Event.compile nm :: B
      ∧ (∀ v : Nat, Event.kernelExec nm v ∉ A)
      ∧ B.countP (isExecOf nm) = benchmarkingIters)
  ∧ (∀ (name s : String) (v : Nat), Event.compile s ∉ trialSegment refv name v)
  ∧ (∀ (name : String) (v : Nat), (trialSegment refv name v).take 4
      = [Event.resetResult, Event.kernelExec name v, Event.readBack v,
         Event.validate refv v]) := by
  have hnodup : kernel_names.Nodup := by decide
  have h1 : (successRun refv kernel_names benchmarkingIters).1
      = (kernel_names.map (kernelBlock refv benchmarkingIters)).flatten := by
    rw [successRun_trace]
  refine ⟨?_, ?_, ?_, ?_⟩
  · rw [h1]
    exact successTrace_count_compile refv benchmarkingIters kernel_names hnodup nm hm
  · rw [h1]
    exact successTrace_compile_position refv benchmarkingIters kernel_names hnodup nm hm
  · exact fun name s v => trialSegment_no_compile refv name v s
  · exact fun name v => trialSegment_take_four refv name v

/-- Witness for C10 at the `sum_tree` kernel with reference sum 0. -/
theorem c10_compile_once_before_trials_witness :
    (successRun 0 kernel_names benchmarkingIters).1.count (Event.compile "sum_tree") = 1 :=
  (c10_compile_once_before_trials 0 "sum_tree" (by decide)).1

end SumBench
